import Mathlib

/-!
Verification of the brontes call-trace tree engine and composer resolution
engine. The definitions in the first part of this file are shallow embeddings
of the Rust code in `crates/brontes-types/src/tree.rs` and
`crates/brontes-inspect/src/composer/mod.rs`:

* mutation is modelled by returning the updated value;
* `u64` / `usize` become `Nat` (no arithmetic in the embedded code can
  overflow a `u64` in the scenarios the theorems quantify over, and index
  arithmetic only ever compares);
* `H256` transaction hashes and `Address` values become `Nat` (only equality
  on them is used);
* code that can panic (`unwrap`, out-of-bounds indexing, division by zero)
  returns `Option`, with `none` for the panic.

Definitions whose name starts with `spec` (plus `flattenActions`, `appendAt`,
`leftmostDeep`, `wfNode`, `removableNode`, `inSub`) are specification-side
reference functions used to state the claims; each is written from the
specification text, not from the code, and the theorems compare the two.
-/

set_option linter.unusedVariables false

namespace Brontes

variable {V R : Type}

/-- One call frame, from `struct Node<V>` in `tree.rs`. Field order follows
the Rust struct: `inner`, `finalized`, `index`, `subactions`,
`trace_address`, `address`, `data`. -/
inductive Node (V : Type) where
  | mk (inner : List (Node V)) (finalized : Bool) (index : Nat)
       (subactions : List V) (traceAddress : List Nat) (address : Nat) (data : V)

def Node.inner : Node V → List (Node V)
  | ⟨l, _, _, _, _, _, _⟩ => l

def Node.finalized : Node V → Bool
  | ⟨_, f, _, _, _, _, _⟩ => f

def Node.index : Node V → Nat
  | ⟨_, _, i, _, _, _, _⟩ => i

def Node.subactions : Node V → List V
  | ⟨_, _, _, s, _, _, _⟩ => s

def Node.traceAddress : Node V → List Nat
  | ⟨_, _, _, _, t, _, _⟩ => t

def Node.address : Node V → Nat
  | ⟨_, _, _, _, _, a, _⟩ => a

def Node.data : Node V → V
  | ⟨_, _, _, _, _, _, d⟩ => d

mutual

/-- `Node::get_all_sub_actions`: a finalized node returns its cached
`subactions`; otherwise the children are flattened in order and the
node's own `data` is pushed last. -/
def Node.getAllSubActions : Node V → List V
  | ⟨inner, true, _, s, _, _, _⟩ => s
  | ⟨inner, false, _, _, _, _, d⟩ => Node.getAllSubActionsList inner ++ [d]

/-- The `flat_map` over `inner` in `get_all_sub_actions`. -/
def Node.getAllSubActionsList : List (Node V) → List V
  | [] => []
  | c :: cs => Node.getAllSubActions c ++ Node.getAllSubActionsList cs

end

mutual

/-- `Node::finalize`: sets `subactions := get_all_sub_actions()` (computed on
the current state, before any flag changes), sets `finalized := true`, then
finalizes every child. -/
def Node.finalize : Node V → Node V
  | ⟨inner, f, i, s, t, a, d⟩ =>
    ⟨Node.finalizeList inner, true, i,
      Node.getAllSubActions ⟨inner, f, i, s, t, a, d⟩, t, a, d⟩

/-- The `for_each` over `inner` in `finalize`. -/
def Node.finalizeList : List (Node V) → List (Node V)
  | [] => []
  | c :: cs => Node.finalize c :: Node.finalizeList cs

end

/-- `Node::get_all_inner_nodes`: when exactly one element of the trace path
remains, push the new node as the last child; otherwise pop the front path
element, descend into the child at that position (`get_mut(..).unwrap()`
panics - `none` - when the position does not exist; an empty path panics in
`trace_addr.remove(0)`). -/
def Node.getAllInnerNodes (n : Node V) : Node V → List Nat → Option (Node V)
  | ⟨inner, f, i, s, t, a, d⟩, [_] => some ⟨inner ++ [n], f, i, s, t, a, d⟩
  | ⟨inner, f, i, s, t, a, d⟩, p :: rest =>
    match inner.get? p with
    | none => none
    | some c =>
      (Node.getAllInnerNodes n c rest).map fun c2 => ⟨inner.set p c2, f, i, s, t, a, d⟩
  | _, [] => none

/-- `Node::insert`: a no-op returning the receiver unchanged when it is
finalized, else routes the new node along its own `trace_address`. -/
def Node.insert (self : Node V) (n : Node V) : Option (Node V) :=
  if self.finalized then some self
  else Node.getAllInnerNodes n self n.traceAddress

mutual

/-- `Node::inspect`: returns the `bool` the Rust function returns together
with the groups this call appended to the shared `result` vector. When the
predicate fails nothing is contributed; otherwise the children are scanned
by `iter().map(..).any(..)`, which, `map` being lazy, stops at the first
child that returns `true`; when no child returned `true` the group
`get_all_sub_actions() ++ [data]` is appended. -/
def Node.inspect (call : Node V → Bool) : Node V → Bool × List (List V)
  | ⟨inner, f, i, s, t, a, d⟩ =>
    if !(call ⟨inner, f, i, s, t, a, d⟩) then (false, [])
    else
      let r := Node.inspectList call inner
      if !r.1 then
        (true, r.2 ++ [Node.getAllSubActions ⟨inner, f, i, s, t, a, d⟩ ++ [d]])
      else (true, r.2)

/-- The short-circuiting `iter().map(|i| i.inspect(..)).any(|f| f)` over the
children: stops consuming children as soon as one returns `true`. -/
def Node.inspectList (call : Node V → Bool) : List (Node V) → Bool × List (List V)
  | [] => (false, [])
  | c :: cs =>
    let rc := Node.inspect call c
    if rc.1 then (true, rc.2)
    else
      let rs := Node.inspectList call cs
      (rs.1, rc.2 ++ rs.2)

end

/-- The `while start.is_none() || end.is_none()` scan of `get_bounded_info`:
walks consecutive child pairs `(next, peek)` and returns the position of the
first pair satisfying `p`; a final child with no `peek` assigns nothing. The
Rust loop exits early once both bounds are found, which is observationally
the first-occurrence scan performed here. -/
def findPairIdx (p : Node V → Node V → Bool) : Nat → List (Node V) → Option Nat
  | _, [] => none
  | _, [_] => none
  | k, c :: c2 :: rest => if p c c2 then some k else findPairIdx p (k + 1) (c2 :: rest)

/-- Position filter equivalent to iterating the Rust slice
`inner[s..e]` (`e = none` for `inner[s..]`) by child position. -/
def posInSlice (s : Nat) (e : Option Nat) (pos : Nat) : Bool :=
  decide (s ≤ pos) && (match e with | some ev => decide (pos < ev) | none => true)

mutual

/-- `Node::get_bounded_info`: returns the `info` snapshots the call pushes
into the shared `res` vector, in push order. An empty `inner` contributes
nothing; a node fully in bounds (`index >= lower && last.index <= upper`)
pushes its own snapshot then recurses into every child; otherwise the
boundary scan picks a start/end pair and only the children of the slice
`inner[start..end]` (or `inner[start..]`) are recursed into. -/
def Node.getBoundedInfo (lower upper : Nat) (infoFn : Node V → R) : Node V → List R
  | ⟨inner, f, i, s, t, a, d⟩ =>
    match inner with
    | [] => []
    | c :: cs =>
      let last := (c :: cs).getLast (List.cons_ne_nil c cs)
      if lower ≤ i ∧ last.index ≤ upper then
        infoFn ⟨inner, f, i, s, t, a, d⟩ :: Node.gbiList lower upper infoFn (c :: cs)
      else
        match findPairIdx (fun x _ => decide (lower ≤ x.index)) 0 (c :: cs),
              findPairIdx (fun _ y => decide (upper < y.index)) 0 (c :: cs) with
        | some s1, some e1 => Node.gbiSlice lower upper infoFn s1 (some e1) 0 (c :: cs)
        | some s1, none => Node.gbiSlice lower upper infoFn s1 none 0 (c :: cs)
        | _, _ => []

/-- The `for_each` over all children in the fully-in-bounds branch. -/
def Node.gbiList (lower upper : Nat) (infoFn : Node V → R) : List (Node V) → List R
  | [] => []
  | c :: cs =>
    Node.getBoundedInfo lower upper infoFn c ++ Node.gbiList lower upper infoFn cs

/-- The `for_each` over the slice `inner[s..e]` / `inner[s..]`, expressed by
walking all children with a position filter. -/
def Node.gbiSlice (lower upper : Nat) (infoFn : Node V → R) (s : Nat) (e : Option Nat) :
    Nat → List (Node V) → List R
  | pos, [] => []
  | pos, c :: cs =>
    (if posInSlice s e pos then Node.getBoundedInfo lower upper infoFn c else []) ++
      Node.gbiSlice lower upper infoFn s e (pos + 1) cs

end

mutual

/-- `Node::indexes_to_remove`: returns the `bool` the Rust function returns
together with the indices this call inserted into the shared `indexes` set
(as a list; only membership matters, the Rust `HashSet` deduplicates and
iterates in arbitrary order). The children are scanned by the short-circuit
`iter().map(..).any(..)`; when none returned `true`, `get_bounded_info` is
called with the literal bounds `(0, self.index)` and `classify`'s output is
added. -/
def Node.indexesToRemove (find : Node V → Bool) (classify : List R → Node V → List Nat)
    (infoFn : Node V → R) : Node V → Bool × List Nat
  | ⟨inner, f, i, s, t, a, d⟩ =>
    if !(find ⟨inner, f, i, s, t, a, d⟩) then (false, [])
    else
      let r := Node.itrList find classify infoFn inner
      if !r.1 then
        (true, r.2 ++
          classify (Node.getBoundedInfo 0 i infoFn ⟨inner, f, i, s, t, a, d⟩)
            ⟨inner, f, i, s, t, a, d⟩)
      else (true, r.2)

/-- The short-circuiting child scan of `indexes_to_remove`. -/
def Node.itrList (find : Node V → Bool) (classify : List R → Node V → List Nat)
    (infoFn : Node V → R) : List (Node V) → Bool × List Nat
  | [] => (false, [])
  | c :: cs =>
    let rc := Node.indexesToRemove find classify infoFn c
    if rc.1 then (true, rc.2)
    else
      let rs := Node.itrList find classify infoFn cs
      (rs.1, rc.2 ++ rs.2)

end

mutual

/-- `Node::remove_index_and_childs`: an empty `inner` returns immediately;
otherwise the child loop of `removeLoop` runs on `inner`. -/
def Node.removeIndexAndChilds (i : Nat) : Node V → Node V
  | ⟨inner, f, idx, s, t, a, d⟩ =>
    if inner.isEmpty then ⟨inner, f, idx, s, t, a, d⟩
    else ⟨Node.removeLoop i inner, f, idx, s, t, a, d⟩

/-- The `loop` in `remove_index_and_childs` over the peekable child
iterator: a child whose `index` equals the target is removed together with
its whole subtree; when the target lies strictly between a child's `index`
and the next sibling's `index` the search recurses into that child; when
the last child is reached with no match (`peek()` returns `None`) the loop
breaks with no change - it never recurses into the last child. -/
def Node.removeLoop (i : Nat) : List (Node V) → List (Node V)
  | [] => []
  | [c] => if c.index == i then [] else [c]
  | c :: c2 :: rest =>
    if c.index == i then c2 :: rest
    else if c.index < i ∧ i < c2.index then Node.removeIndexAndChilds i c :: c2 :: rest
    else c :: Node.removeLoop i (c2 :: rest)

end

/-- `struct GasDetails` from `tree.rs`. -/
structure GasDetails where
  coinbaseTransfer : Option Nat
  priorityFee : Nat
  gasUsed : Nat
  effectiveGasPrice : Nat

/-- `struct Root<V>` from `tree.rs`. `tx_hash` is a `Nat` stand-in for
`H256`; the Rust field `private` is a Lean keyword-adjacent name, kept as
`priv_`. -/
structure Root (V : Type) where
  head : Node V
  txHash : Nat
  priv_ : Bool
  gasDetails : GasDetails

/-- `Root::insert`: forwards to `head.insert`. -/
def Root.insert (r : Root V) (n : Node V) : Option (Root V) :=
  (r.head.insert n).map fun h => { r with head := h }

/-- `Root::inspect`: creates an empty result vector, runs `head.inspect`
into it and returns it. -/
def Root.inspect (call : Node V → Bool) (r : Root V) : List (List V) :=
  (Node.inspect call r.head).2

/-- `Root::finalize`: forwards to `head.finalize`. -/
def Root.finalize (r : Root V) : Root V :=
  { r with head := Node.finalize r.head }

/-- `Root::remove_duplicate_data`: collects the indices of
`indexes_to_remove` into a set, then calls `remove_index_and_childs` on the
head once per collected index. The Rust `HashSet` iterates in arbitrary
order and deduplicates; the fold below applies the list order, and the
theorems about this function hold for every index list. -/
def Root.removeDuplicateData (find : Node V → Bool)
    (classify : List R → Node V → List Nat) (infoFn : Node V → R) (r : Root V) : Root V :=
  let indexes := (Node.indexesToRemove find classify infoFn r.head).2
  { r with head := indexes.foldl (fun h i => Node.removeIndexAndChilds i h) r.head }

/-- `struct TimeTree<V>` from `tree.rs`, keeping the fields the embedded
operations read: the roots, the header's `base_fee_per_gas` and the derived
`avg_priority_fee`. The eth-price pair is never read by the embedded code. -/
structure TimeTree (V : Type) where
  roots : List (Root V)
  baseFeePerGas : Option Nat
  avgPriorityFee : Nat

/-- `TimeTree::finalize_tree`: computes `avg_priority_fee` as the `u64` sum
of `effective_gas_price - base_fee_per_gas.unwrap()` over all roots divided
by the number of roots, then finalizes every root. The three panic paths -
a missing `base_fee_per_gas` (`unwrap`), a `u64` subtraction underflow, and
the division by zero when `roots` is empty - are modelled as `none`. -/
def TimeTree.finalizeTree (t : TimeTree V) : Option (TimeTree V) :=
  match t.baseFeePerGas with
  | none => none
  | some bf =>
    if t.roots.isEmpty then none
    else if t.roots.any (fun r => r.gasDetails.effectiveGasPrice < bf) then none
    else
      some { roots := t.roots.map Root.finalize,
             baseFeePerGas := some bf,
             avgPriorityFee :=
               (t.roots.map (fun r => r.gasDetails.effectiveGasPrice - bf)).sum /
                 t.roots.length }

/-!
Composer resolution engine, from `crates/brontes-inspect/src/composer/mod.rs`.
The bundle shapes (`ClassifiedMev`, `SpecificMev`) live outside the provided
sources; only their MEV-kind tag and `mev_transaction_hashes()` are read by
the embedded functions, so a bundle is modelled as that data plus an opaque
payload tag.
-/

/-- Modelled from the spec: the MEV kind tag (`MevType`); the enum itself is
declared outside the provided sources. The variants are the ones named by
the dependency table in `composer/mod.rs` plus a spare. -/
inductive MevType where
  | Sandwich
  | Backrun
  | JitSandwich
  | Jit
  | CexDex
  | Liquidation
deriving DecidableEq, Repr

/-- One classified bundle, the pair `(ClassifiedMev, Box<dyn SpecificMev>)`:
`mevType` is `ClassifiedMev.mev_type`, `hashes` is what
`mev_transaction_hashes()` returns (a `Vec<H256>`, compared by `==` in the
source, hence a `List Nat` here), `tag` stands for the rest of the payload. -/
structure Bundle where
  mevType : MevType
  hashes : List Nat
  tag : Nat
deriving DecidableEq, Repr

/-- The per-kind grouping `HashMap<MevType, Vec<..>>` as a total function; a
missing key and an empty group behave identically in every embedded
operation (`get`/`remove` guards only skip work on them). -/
def SortedMev : Type := MevType → List Bundle

/-- Pointwise update of one kind's group. -/
def updGroup (m : SortedMev) (k : MevType) (v : List Bundle) : SortedMev :=
  fun t => if t == k then v else m t

/-- The inner scan of `Composer::replace_dep_filter` over one dependency
kind's bundles: emits `(i - remove_count)` for every bundle whose hash list
equals the head bundle's (`dep_hashes == hashes`) or shares any hash with
it, incrementing `remove_count` at each emission. -/
def scanDep (hashes : List Nat) : Nat → Nat → List Bundle → List Nat
  | _, _, [] => []
  | removeCount, i, b :: bs =>
    if b.hashes == hashes || b.hashes.any (fun h => hashes.contains h) then
      (i - removeCount) :: scanDep hashes (removeCount + 1) (i + 1) bs
    else
      scanDep hashes removeCount (i + 1) bs

/-- `Composer::replace_dep_filter`: for every bundle of the head kind and
every listed dependency kind, collect the adjusted positions of matching
dependency bundles, then remove them one by one, skipping any position no
longer in range (`entry.len() > index`). -/
def replaceDepFilter (headType : MevType) (deps : List MevType) (m : SortedMev) :
    SortedMev :=
  let headMev := m headType
  let flattenedIndexes : List (MevType × Nat) :=
    (headMev.map (fun hb =>
      (deps.map (fun dep =>
        (scanDep hb.hashes 0 0 (m dep)).map (fun i => (dep, i)))).flatten)).flatten
  flattenedIndexes.foldl
    (fun acc p =>
      if p.2 < (acc p.1).length then updGroup acc p.1 ((acc p.1).eraseIdx p.2)
      else acc)
    m

/-- The `enumerate().find(..)` in `Composer::compose_dep_filter`: the first
bundle whose hash list equals the head bundle's or contains any of its
hashes, with its position. -/
def findPartner (addresses : List Nat) : Nat → List Bundle → Option (Nat × Bundle)
  | _, [] => none
  | i, b :: bs =>
    if b.hashes == addresses || addresses.any (fun a => b.hashes.contains a) then
      some (i, b)
    else findPartner addresses (i + 1) bs

/-- The `for` loop of `compose_dep_filter` over the removed first-kind
bundles: a found partner is removed from the second kind's group and the
composed bundle is pushed onto the parent kind's group; otherwise the
first-kind bundle is pushed back onto its original group. -/
def composeLoop (parent d0 d1 : MevType) (compose : Bundle → Bundle → Bundle) :
    List Bundle → SortedMev → SortedMev
  | [], m => m
  | b :: bs, m =>
    match findPartner b.hashes 0 (m d1) with
    | some (i, partner) =>
      let m1 := updGroup m d1 ((m d1).eraseIdx i)
      let m2 := updGroup m1 parent (m1 parent ++ [compose b partner])
      composeLoop parent d0 d1 compose bs m2
    | none =>
      composeLoop parent d0 d1 compose bs (updGroup m d0 (m d0 ++ [b]))

/-- `Composer::compose_dep_filter`: panics (`none`) unless the entry lists
exactly two dependency kinds; removes the whole first-kind group up front
(`sorted_mev.remove`), then runs the compose loop over its bundles. -/
def composeDepFilter (parent : MevType) (deps : List MevType)
    (compose : Bundle → Bundle → Bundle) (m : SortedMev) : Option SortedMev :=
  match deps with
  | [d0, d1] =>
    let zeroTxes := m d0
    some (composeLoop parent d0 d1 compose zeroTxes (updGroup m d0 []))
  | _ => none

/-!
Specification-side reference definitions. These are written from the
specification's words, to be compared with the embedded code.
-/

mutual

/-- Specification-side flattening (section 4.1 / section 8 of the spec):
the concatenation of each child's fully-flattened subactions, in child
order, followed by the node's own action. -/
def flattenActions : Node V → List V
  | ⟨inner, _, _, _, _, _, d⟩ => flattenList inner ++ [d]

/-- List version of `flattenActions`. -/
def flattenList : List (Node V) → List V
  | [] => []
  | c :: cs => flattenActions c ++ flattenList cs

end

mutual

/-- No node of the subtree is finalized (the "not previously finalized"
hypothesis of the finalization claim). -/
def noFin : Node V → Bool
  | ⟨inner, f, _, _, _, _, _⟩ => !f && noFinList inner

/-- List version of `noFin`. -/
def noFinList : List (Node V) → Bool
  | [] => true
  | c :: cs => noFin c && noFinList cs

end

mutual

/-- Every node of the subtree satisfies `p`. -/
def allNodesP (p : Node V → Prop) : Node V → Prop
  | ⟨inner, f, i, s, t, a, d⟩ =>
    p ⟨inner, f, i, s, t, a, d⟩ ∧ allNodesListP p inner

/-- List version of `allNodesP`. -/
def allNodesListP (p : Node V → Prop) : List (Node V) → Prop
  | [] => True
  | c :: cs => allNodesP p c ∧ allNodesListP p cs

end

/-- Specification-side insertion routing (section 4.1 of the spec): descend
into the child at each listed position, and append the new node as the last
child of the node reached; `none` when a position does not exist. The path
argument is the trace path with its last element already dropped - the spec
appends "when exactly one path element remains". -/
def appendAt (n : Node V) : Node V → List Nat → Option (Node V)
  | ⟨inner, f, i, s, t, a, d⟩, [] => some ⟨inner ++ [n], f, i, s, t, a, d⟩
  | ⟨inner, f, i, s, t, a, d⟩, p :: ps =>
    match inner.get? p with
    | none => none
    | some c => (appendAt n c ps).map fun c2 => ⟨inner.set p c2, f, i, s, t, a, d⟩

mutual

/-- Specification-side bounded gather (section 4.1 of the spec): an `info`
snapshot for every node of the subtree whose `index` falls in the closed
range `[lower, upper]`, in preorder. -/
def specInfoInRange (lower upper : Nat) (infoFn : Node V → R) : Node V → List R
  | ⟨inner, f, i, s, t, a, d⟩ =>
    (if lower ≤ i ∧ i ≤ upper then [infoFn ⟨inner, f, i, s, t, a, d⟩] else []) ++
      specInfoList lower upper infoFn inner

/-- List version of `specInfoInRange`. -/
def specInfoList (lower upper : Nat) (infoFn : Node V → R) : List (Node V) → List R
  | [] => []
  | c :: cs =>
    specInfoInRange lower upper infoFn c ++ specInfoList lower upper infoFn cs

end

/-- The node reached from `n` by repeatedly stepping into the first child
satisfying `call`; this is where the short-circuiting `inspect` anchors its
single result group. -/
def leftmostDeep (call : Node V → Bool) (n : Node V) : Node V :=
  match h : n.inner.find? call with
  | some c => leftmostDeep call c
  | none => n
termination_by sizeOf n
decreasing_by
  have hm : c ∈ n.inner := List.mem_of_find?_eq_some h
  cases n with
  | mk l f i s t a d =>
    simp only [Node.inner] at hm
    have h2 : sizeOf c < sizeOf l := List.sizeOf_lt_of_mem hm
    simp only [Node.mk.sizeOf_spec]
    omega

mutual

/-- Some node of the subtree (the node itself included) has index `j`. -/
def contains (j : Nat) : Node V → Bool
  | ⟨inner, _, i, _, _, _, _⟩ => i == j || containsList j inner

/-- List version of `contains`. -/
def containsList (j : Nat) : List (Node V) → Bool
  | [] => false
  | c :: cs => contains j c || containsList j cs

end

mutual

/-- The largest index occurring in the subtree. -/
def maxIdx : Node V → Nat
  | ⟨inner, _, i, _, _, _, _⟩ => maxIdxList i inner

/-- Running maximum of `maxIdx` over a list of nodes. -/
def maxIdxList (acc : Nat) : List (Node V) → Nat
  | [] => acc
  | c :: cs => maxIdxList (max acc (maxIdx c)) cs

end

mutual

/-- The preorder index invariant the tree builder establishes (section 3 of
the spec): a node's index is below every index of its subtree, and the
sibling subtrees occupy disjoint, increasing index ranges. -/
def wfNode : Node V → Bool
  | ⟨inner, _, i, _, _, _, _⟩ => wfList i inner

/-- `wfList lo l`: every index in `l`'s subtrees is above `lo`, each member
is well-formed, and each member's whole subtree lies below the next
member's index. -/
def wfList (lo : Nat) : List (Node V) → Bool
  | [] => true
  | c :: cs => decide (lo < c.index) && wfNode c && wfList (maxIdx c) cs

end

mutual

/-- The descent of `remove_index_and_childs` can reach a node with index
`i`: at each level `i` either equals a child's index, or lies strictly
between two consecutive children's indexes and the recursion into the
former child can reach it. -/
def removableNode (i : Nat) : Node V → Bool
  | ⟨inner, _, _, _, _, _, _⟩ => removableLoop i inner

/-- List version of `removableNode`, mirroring the `loop` of
`remove_index_and_childs`. -/
def removableLoop (i : Nat) : List (Node V) → Bool
  | [] => false
  | [c] => c.index == i
  | c :: c2 :: rest =>
    if c.index == i then true
    else if c.index < i ∧ i < c2.index then removableNode i c
    else removableLoop i (c2 :: rest)

end

mutual

/-- `inSub i j n`: the subtree of `n` rooted at the node with index `i`
contains a node with index `j` (that is, `j` is `i` itself or a descendant
of the node carrying index `i`). -/
def inSub (i j : Nat) : Node V → Bool
  | ⟨inner, f, idx, s, t, a, d⟩ =>
    if idx == i then contains j ⟨inner, f, idx, s, t, a, d⟩
    else inSubList i j inner

/-- List version of `inSub`. -/
def inSubList (i j : Nat) : List (Node V) → Bool
  | [] => false
  | c :: cs => inSub i j c || inSubList i j cs

end

/-- Observation of one kind's group after `compose_dep_filter` (which can
panic on a malformed table, hence the `Option`). -/
def composeResultGroup (parent : MevType) (deps : List MevType)
    (compose : Bundle → Bundle → Bundle) (m : SortedMev) (t : MevType) :
    Option (List Bundle) :=
  (composeDepFilter parent deps compose m).map fun f => f t

/-!
Concrete inputs used by the counterexamples and witnesses.
-/

/-- Leaf with index 1, action 11. -/
def nodeA : Node Nat := ⟨[], false, 1, [], [], 0, 11⟩

/-- Leaf with index 2, action 12. -/
def nodeB : Node Nat := ⟨[], false, 2, [], [], 0, 12⟩

/-- Two-sibling tree: head (index 0, action 10) with children `nodeA` and
`nodeB`. -/
def c1raw : Node Nat := ⟨[nodeA, nodeB], false, 0, [], [], 0, 10⟩

/-- The finalized form of `c1raw`. -/
def c1t : Node Nat := Node.finalize c1raw

/-- Two-sibling tree for the bounded-info counterexample: head index 0 with
children of index 1 and 2. -/
def t2wit : Node Nat :=
  ⟨[⟨[], false, 1, [], [], 0, 101⟩, ⟨[], false, 2, [], [], 0, 102⟩], false, 0, [], [], 0, 100⟩

/-- Chain tree head(0) -> child(1) -> grandchild(2): the grandchild lives in
the subtree of its parent's last (only) child. -/
def t3wit : Node Nat :=
  ⟨[⟨[⟨[], false, 2, [], [], 0, 12⟩], false, 1, [], [], 0, 11⟩], false, 0, [], [], 0, 10⟩

/-- A `Root` around `t3wit`. -/
def r3wit : Root Nat := ⟨t3wit, 0, false, ⟨none, 0, 0, 0⟩⟩

/-- Insertion target: head with one child at position 0 (that child's index
is 1). -/
def c7target : Node Nat := ⟨[⟨[], false, 1, [], [0], 0, 21⟩], false, 0, [], [], 0, 20⟩

/-- Node to insert, carrying trace path `[0, 5]`. -/
def c7new : Node Nat := ⟨[], false, 9, [], [0, 5], 0, 22⟩

/-- A root with the given effective gas price and a trivial head. -/
def rootW (egp : Nat) : Root Nat := ⟨⟨[], false, 0, [], [], 0, 0⟩, 0, false, ⟨none, 0, 0, egp⟩⟩

/-- Block tree with two transactions paying `base_fee + 2` and
`base_fee + 4` over a base fee of 10. -/
def treeW : TimeTree Nat := ⟨[rootW 12, rootW 14], some 10, 0⟩

/-- Block tree with zero transactions. -/
def treeEmptyW : TimeTree Nat := ⟨[], some 10, 0⟩

/-- A `Sandwich` bundle over hash set `{0xAA}`. -/
def bSandW : Bundle := ⟨.Sandwich, [0xAA], 1⟩

/-- A `Jit` bundle over hash set `{0xAA}`. -/
def bJitW : Bundle := ⟨.Jit, [0xAA], 2⟩

/-- Grouping holding exactly the `Sandwich` and `Jit` bundles above. -/
def mapC5W : SortedMev := fun t =>
  match t with
  | .Sandwich => [bSandW]
  | .Jit => [bJitW]
  | _ => []

/-- A concrete compose function for witnesses. -/
def cfW : Bundle → Bundle → Bundle := fun x y => ⟨.JitSandwich, x.hashes, x.tag + y.tag⟩

/-- A `CexDex` bundle over hash set `{0xBB}`. -/
def bCexW : Bundle := ⟨.CexDex, [0xBB], 3⟩

/-- A `Backrun` bundle over hash set `{0xBB, 0xCC}`. -/
def bBackW : Bundle := ⟨.Backrun, [0xBB, 0xCC], 4⟩

/-- Grouping holding exactly the `CexDex` and `Backrun` bundles above. -/
def mapC6W : SortedMev := fun t =>
  match t with
  | .CexDex => [bCexW]
  | .Backrun => [bBackW]
  | _ => []

/-!
Theorems. Small structural lemmas first, then one theorem per claim
(with its witness or counterexample).
-/

@[simp] theorem Node.inner_mk (l : List (Node V)) (f i s t a d) :
    (Node.mk l f i s t a d).inner = l := rfl

@[simp] theorem Node.finalized_mk (l : List (Node V)) (f i s t a d) :
    (Node.mk l f i s t a d).finalized = f := rfl

@[simp] theorem Node.index_mk (l : List (Node V)) (f i s t a d) :
    (Node.mk l f i s t a d).index = i := rfl

@[simp] theorem Node.subactions_mk (l : List (Node V)) (f i s t a d) :
    (Node.mk l f i s t a d).subactions = s := rfl

@[simp] theorem Node.traceAddress_mk (l : List (Node V)) (f i s t a d) :
    (Node.mk l f i s t a d).traceAddress = t := rfl

@[simp] theorem Node.address_mk (l : List (Node V)) (f i s t a d) :
    (Node.mk l f i s t a d).address = a := rfl

@[simp] theorem Node.data_mk (l : List (Node V)) (f i s t a d) :
    (Node.mk l f i s t a d).data = d := rfl

@[simp] theorem updGroup_same (m : SortedMev) (k : MevType) (v : List Bundle) :
    updGroup m k v k = v := by
  simp [updGroup]

theorem updGroup_other (m : SortedMev) (k : MevType) (v : List Bundle) (t : MevType)
    (h : t ≠ k) : updGroup m k v t = m t := by
  simp [updGroup, h]

/-- C9. For every finalized node and every new node, `insert` is a no-op
returning the node (and hence its entire subtree and all fields)
unchanged. -/
theorem claim9_insert_noop (n m : Node V) (h : n.finalized = true) :
    Node.insert n m = some n := by
  simp [Node.insert, h]

/-- Witness for C9 at the finalized tree `c1t` and fresh node `c7new`. -/
theorem claim9_witness :
    c1t.finalized = true ∧ Node.insert c1t c7new = some c1t :=
  ⟨rfl, claim9_insert_noop c1t c7new rfl⟩

theorem removeIndexAndChilds_fields (i : Nat) (n : Node V) :
    (Node.removeIndexAndChilds i n).index = n.index ∧
    (Node.removeIndexAndChilds i n).data = n.data ∧
    (Node.removeIndexAndChilds i n).address = n.address ∧
    (Node.removeIndexAndChilds i n).finalized = n.finalized ∧
    (Node.removeIndexAndChilds i n).subactions = n.subactions ∧
    (Node.removeIndexAndChilds i n).traceAddress = n.traceAddress := by
  cases n with
  | mk l f idx s t a d =>
    simp only [Node.removeIndexAndChilds]
    split <;> simp

theorem removeFold_fields (l : List Nat) (n : Node V) :
    (l.foldl (fun h i => Node.removeIndexAndChilds i h) n).index = n.index ∧
    (l.foldl (fun h i => Node.removeIndexAndChilds i h) n).data = n.data ∧
    (l.foldl (fun h i => Node.removeIndexAndChilds i h) n).address = n.address ∧
    (l.foldl (fun h i => Node.removeIndexAndChilds i h) n).finalized = n.finalized ∧
    (l.foldl (fun h i => Node.removeIndexAndChilds i h) n).subactions = n.subactions ∧
    (l.foldl (fun h i => Node.removeIndexAndChilds i h) n).traceAddress = n.traceAddress := by
  induction l generalizing n with
  | nil => simp
  | cons i l ih =>
    have h1 := removeIndexAndChilds_fields i n
    have h2 := ih (Node.removeIndexAndChilds i n)
    simp only [List.foldl_cons] at *
    obtain ⟨a1, a2, a3, a4, a5, a6⟩ := h1
    obtain ⟨b1, b2, b3, b4, b5, b6⟩ := h2
    exact ⟨b1.trans a1, b2.trans a2, b3.trans a3, b4.trans a4, b5.trans a5, b6.trans a6⟩

/-- C10. For every Root and every `find`/`classify`/`extract_info`,
`remove_duplicate_data` never removes the Root's head node: the removal
pass only ever deletes children of the node it descends into, so the head
survives with all of its own fields unchanged, whatever indices `classify`
returns (including the head's own index). -/
theorem claim10_head_survives (find : Node V → Bool)
    (classify : List R → Node V → List Nat) (infoFn : Node V → R) (r : Root V) :
    (Root.removeDuplicateData find classify infoFn r).head.index = r.head.index ∧
    (Root.removeDuplicateData find classify infoFn r).head.data = r.head.data ∧
    (Root.removeDuplicateData find classify infoFn r).head.address = r.head.address ∧
    (Root.removeDuplicateData find classify infoFn r).head.finalized = r.head.finalized ∧
    (Root.removeDuplicateData find classify infoFn r).head.subactions = r.head.subactions ∧
    (Root.removeDuplicateData find classify infoFn r).head.traceAddress = r.head.traceAddress := by
  simp only [Root.removeDuplicateData]
  exact removeFold_fields _ r.head

/-- C8. `finalize_tree` computes `avg_priority_fee` as the integer mean of
`effective_gas_price - base_fee` over all roots: for two transactions
paying `base_fee + 2` and `base_fee + 4` the average is 3; with zero roots
the division by zero is a fatal condition (modelled as `none`); in general
the value is the `u64` sum of differences divided by the root count. -/
theorem claim8_avg_priority_fee :
    (∀ (t : TimeTree V) (r1 r2 : Root V) (bf : Nat),
        t.roots = [r1, r2] → t.baseFeePerGas = some bf →
        r1.gasDetails.effectiveGasPrice = bf + 2 →
        r2.gasDetails.effectiveGasPrice = bf + 4 →
        (TimeTree.finalizeTree t).map (fun x => x.avgPriorityFee) = some 3) ∧
    (∀ t : TimeTree V, t.roots = [] → TimeTree.finalizeTree t = none) ∧
    (∀ (t : TimeTree V) (bf : Nat), t.baseFeePerGas = some bf → t.roots ≠ [] →
        (∀ r ∈ t.roots, bf ≤ r.gasDetails.effectiveGasPrice) →
        (TimeTree.finalizeTree t).map (fun x => x.avgPriorityFee) =
          some ((t.roots.map (fun r => r.gasDetails.effectiveGasPrice - bf)).sum /
            t.roots.length)) := by
  refine ⟨?_, ?_, ?_⟩
  · intro t r1 r2 bf hr hb h1 h2
    have hany : (t.roots.any fun r => r.gasDetails.effectiveGasPrice < bf) = false := by
      rw [hr]
      simp only [List.any_cons, List.any_nil, h1, h2, Bool.or_eq_false_iff,
        decide_eq_false_iff_not]
      exact ⟨by omega, by omega, trivial⟩
    have hne : t.roots.isEmpty = false := by rw [hr]; rfl
    simp [TimeTree.finalizeTree, hr, hb, hany, hne, h1, h2, Nat.add_sub_cancel_left]
  · intro t hr
    cases hb : t.baseFeePerGas with
    | none => simp [TimeTree.finalizeTree, hb]
    | some bf => simp [TimeTree.finalizeTree, hb, hr]
  · intro t bf hb hr hge
    have hany : (t.roots.any fun r => r.gasDetails.effectiveGasPrice < bf) = false := by
      simp only [List.any_eq_false]
      intro r hrm
      have := hge r hrm
      simp only [decide_eq_true_eq]
      omega
    have hne : t.roots.isEmpty = false := by
      cases hq : t.roots with
      | nil => exact absurd hq hr
      | cons x xs => simp
    simp [TimeTree.finalizeTree, hb, hany, hne]

/-- Witness for C8 at a block with base fee 10 and effective gas prices 12
and 14 (average 3), and at a block with zero transactions (fatal). -/
theorem claim8_witness :
    (TimeTree.finalizeTree treeW).map (fun x => x.avgPriorityFee) = some 3 ∧
    TimeTree.finalizeTree treeEmptyW = none :=
  ⟨claim8_avg_priority_fee.1 treeW (rootW 12) (rootW 14) 10 rfl rfl rfl rfl,
   claim8_avg_priority_fee.2.1 treeEmptyW rfl⟩

theorem getAllInnerNodes_append (m : Node V) (pn : Nat) (ps : List Nat) (t : Node V) :
    Node.getAllInnerNodes m t (ps ++ [pn]) = appendAt m t ps := by
  induction ps generalizing t with
  | nil =>
    cases t with
    | mk inner f i s tr a d => simp [Node.getAllInnerNodes, appendAt]
  | cons p ps ih =>
    cases t with
    | mk inner f i s tr a d =>
      cases hq : ps ++ [pn] with
      | nil => exact absurd hq (by simp)
      | cons q qs =>
        rw [List.cons_append, hq]
        simp only [Node.getAllInnerNodes, appendAt]
        cases hg : inner.get? p with
        | none => rfl
        | some c =>
          have h2 := ih c
          rw [hq] at h2
          simp only [h2]

/-- C7. For a non-finalized tree, inserting a node whose trace path is
`ps ++ [pn]` descends by child position through every element of `ps` and
appends the node as the last child of the node reached - the final path
element only signals "one element left" and is not used for positioning,
which is exactly the spec's routing `appendAt`. -/
theorem claim7_insert_routing (t m : Node V) (ps : List Nat) (pn : Nat)
    (hf : t.finalized = false) (hp : m.traceAddress = ps ++ [pn]) :
    Node.insert t m = appendAt m t ps := by
  rw [Node.insert, hf, hp]
  simp only [Bool.false_eq_true, if_false]
  exact getAllInnerNodes_append m pn ps t

/-- Witness for C7: inserting a node with trace path `[0, 5]` into
`c7target` descends into child position 0 and appends there, matching
`appendAt` along `[0]`. -/
theorem claim7_witness :
    c7target.finalized = false ∧ c7new.traceAddress = [0] ++ [5] ∧
    Node.insert c7target c7new = appendAt c7new c7target [0] :=
  ⟨rfl, rfl, claim7_insert_routing c7target c7new [0] 5 rfl rfl⟩

mutual

theorem getAllSubActions_of_noFin (n : Node V) (h : noFin n = true) :
    Node.getAllSubActions n = flattenActions n := by
  match n with
  | ⟨inner, f, i, s, t, a, d⟩ =>
    simp only [noFin, Bool.and_eq_true, Bool.not_eq_true'] at h
    obtain ⟨hf, hl⟩ := h
    subst hf
    simp only [Node.getAllSubActions, flattenActions]
    rw [getAllSubActionsList_of_noFin inner hl]

theorem getAllSubActionsList_of_noFin (l : List (Node V)) (h : noFinList l = true) :
    Node.getAllSubActionsList l = flattenList l := by
  match l with
  | [] => rfl
  | c :: cs =>
    simp only [noFinList, Bool.and_eq_true] at h
    simp only [Node.getAllSubActionsList, flattenList]
    rw [getAllSubActions_of_noFin c h.1, getAllSubActionsList_of_noFin cs h.2]

end

mutual

theorem flattenActions_finalize (n : Node V) :
    flattenActions (Node.finalize n) = flattenActions n := by
  match n with
  | ⟨inner, f, i, s, t, a, d⟩ =>
    simp only [Node.finalize, flattenActions]
    rw [flattenList_finalize inner]

theorem flattenList_finalize (l : List (Node V)) :
    flattenList (Node.finalizeList l) = flattenList l := by
  match l with
  | [] => rfl
  | c :: cs =>
    simp only [Node.finalizeList, flattenList]
    rw [flattenActions_finalize c, flattenList_finalize cs]

end

mutual

theorem finalize_allNodes (n : Node V) (h : noFin n = true) :
    allNodesP (fun m => m.finalized = true ∧ m.subactions = flattenActions m)
      (Node.finalize n) := by
  match n with
  | ⟨inner, f, i, s, t, a, d⟩ =>
    have hnf := h
    simp only [noFin, Bool.and_eq_true, Bool.not_eq_true'] at hnf
    obtain ⟨hf, hl⟩ := hnf
    simp only [Node.finalize, allNodesP]
    constructor
    · refine ⟨rfl, ?_⟩
      simp only [Node.subactions_mk]
      rw [getAllSubActions_of_noFin _ h]
      simp only [flattenActions]
      rw [flattenList_finalize inner]
    · exact finalizeList_allNodes inner hl

theorem finalizeList_allNodes (l : List (Node V)) (h : noFinList l = true) :
    allNodesListP (fun m => m.finalized = true ∧ m.subactions = flattenActions m)
      (Node.finalizeList l) := by
  match l with
  | [] => trivial
  | c :: cs =>
    simp only [noFinList, Bool.and_eq_true] at h
    simp only [Node.finalizeList, allNodesListP]
    exact ⟨finalize_allNodes c h.1, finalizeList_allNodes cs h.2⟩

end

/-- C4. For a tree with no previously finalized node, `finalize` leaves
every node with `finalized = true` and with `subactions` equal to the
concatenation of each child's fully-flattened subactions in child order
followed by the node's own action; and re-deriving the flattened sequence
from the freshly finalized copy (`get_all_sub_actions`) yields the same
sequence as flattening the original - the code's top-down order agrees
with the spec's child-first postorder. -/
theorem claim4_finalize (n : Node V) (h : noFin n = true) :
    allNodesP (fun m => m.finalized = true ∧ m.subactions = flattenActions m)
      (Node.finalize n) ∧
    Node.getAllSubActions (Node.finalize n) = flattenActions n := by
  refine ⟨finalize_allNodes n h, ?_⟩
  cases n with
  | mk inner f i s t a d =>
    simp only [Node.finalize, Node.getAllSubActions]
    exact getAllSubActions_of_noFin _ h

/-- Witness for C4 at the two-sibling tree `c1raw`. -/
theorem claim4_witness :
    noFin c1raw = true ∧
    (allNodesP (fun m => m.finalized = true ∧ m.subactions = flattenActions m)
      (Node.finalize c1raw) ∧
     Node.getAllSubActions (Node.finalize c1raw) = flattenActions c1raw) :=
  ⟨rfl, claim4_finalize c1raw rfl⟩

/-- C6. Given a grouping with a `CexDex` bundle over `{0xBB}` and a
`Backrun` bundle over the overlapping `{0xBB, 0xCC}`, the filter entry
`CexDex => Backrun` (no compose function) removes the `Backrun` bundle and
leaves the `CexDex` group untouched. -/
theorem claim6_filter_overlap (m : SortedMev) (b1 b2 : Bundle)
    (h1 : m MevType.CexDex = [b1]) (h2 : m MevType.Backrun = [b2])
    (hh1 : b1.hashes = [0xBB]) (hh2 : b2.hashes = [0xBB, 0xCC]) :
    replaceDepFilter MevType.CexDex [MevType.Backrun] m MevType.Backrun = [] ∧
    replaceDepFilter MevType.CexDex [MevType.Backrun] m MevType.CexDex =
      m MevType.CexDex := by
  have hcond : (b2.hashes == b1.hashes || b2.hashes.any fun h => b1.hashes.contains h)
      = true := by
    rw [hh1, hh2]; rfl
  have hscan : scanDep b1.hashes 0 0 [b2] = [0] := by
    simp only [scanDep, hcond, if_true]
  have hres : replaceDepFilter MevType.CexDex [MevType.Backrun] m =
      updGroup m MevType.Backrun [] := by
    simp only [replaceDepFilter, h1, h2, hscan, List.map_cons, List.map_nil,
      List.flatten_cons, List.flatten_nil, List.append_nil, List.foldl_cons,
      List.foldl_nil, List.length_cons, List.length_nil,
      List.eraseIdx_cons_zero]
    norm_num [h2]
  rw [hres]
  exact ⟨updGroup_same m MevType.Backrun [], updGroup_other m MevType.Backrun [] _ (by decide)⟩

/-- Witness for C6 at the concrete grouping `mapC6W`. -/
theorem claim6_witness :
    replaceDepFilter MevType.CexDex [MevType.Backrun] mapC6W MevType.Backrun = [] ∧
    replaceDepFilter MevType.CexDex [MevType.Backrun] mapC6W MevType.CexDex =
      mapC6W MevType.CexDex :=
  claim6_filter_overlap mapC6W bCexW bBackW rfl rfl rfl rfl

theorem findPartner_none (a : List Nat) (l : List Bundle)
    (h : ∀ p ∈ l, (p.hashes == a || a.any fun x => p.hashes.contains x) = false) :
    ∀ i, findPartner a i l = none := by
  induction l with
  | nil => intro i; rfl
  | cons b bs ih =>
    intro i
    simp only [findPartner]
    rw [h b (by simp)]
    simp only [Bool.false_eq_true, if_false]
    exact ih (fun p hp => h p (by simp [hp])) (i + 1)

theorem composeLoop_noPartner (parent d0 d1 : MevType) (cf : Bundle → Bundle → Bundle)
    (hne : d1 ≠ d0) :
    ∀ (bs : List Bundle) (mc : SortedMev),
      (∀ b ∈ bs, findPartner b.hashes 0 (mc d1) = none) →
      ∀ t, composeLoop parent d0 d1 cf bs mc t =
        if t = d0 then mc d0 ++ bs else mc t := by
  intro bs
  induction bs with
  | nil =>
    intro mc h t
    simp only [composeLoop]
    split
    · next ht => subst ht; simp
    · rfl
  | cons b bs ih =>
    intro mc h t
    simp only [composeLoop, h b (by simp : b ∈ b :: bs)]
    have hbs : ∀ x ∈ bs, findPartner x.hashes 0 (updGroup mc d0 (mc d0 ++ [b]) d1) = none := by
      intro x hx
      rw [updGroup_other _ _ _ _ hne]
      exact h x (by simp [hx])
    rw [ih (updGroup mc d0 (mc d0 ++ [b])) hbs t]
    by_cases ht : t = d0
    · subst ht; simp
    · simp [ht, updGroup_other _ _ _ _ ht]

/-- C5. A compose entry with a compose function: on a grouping holding
exactly one `Sandwich` and one `Jit` bundle, both over `{0xAA}`, the entry
`JitSandwich => Sandwich, Jit` yields exactly one `JitSandwich` bundle and
empty `Sandwich` and `Jit` groups; and whenever no bundle of the second
dependency kind matches any removed first-kind bundle, every first-kind
bundle is put back unchanged and the whole grouping is unaffected. -/
theorem claim5_compose_entry :
    (∀ (m : SortedMev) (b1 b2 : Bundle) (cf : Bundle → Bundle → Bundle),
        m MevType.Sandwich = [b1] → m MevType.Jit = [b2] →
        m MevType.JitSandwich = [] →
        b1.hashes = [0xAA] → b2.hashes = [0xAA] →
        composeResultGroup MevType.JitSandwich [MevType.Sandwich, MevType.Jit] cf m
            MevType.JitSandwich = some [cf b1 b2] ∧
        composeResultGroup MevType.JitSandwich [MevType.Sandwich, MevType.Jit] cf m
            MevType.Sandwich = some [] ∧
        composeResultGroup MevType.JitSandwich [MevType.Sandwich, MevType.Jit] cf m
            MevType.Jit = some []) ∧
    (∀ (m : SortedMev) (parent d0 d1 : MevType) (cf : Bundle → Bundle → Bundle),
        d1 ≠ d0 →
        (∀ b ∈ m d0, ∀ p ∈ m d1,
          (p.hashes == b.hashes || b.hashes.any fun x => p.hashes.contains x) = false) →
        ∀ t, composeResultGroup parent [d0, d1] cf m t = some (m t)) := by
  constructor
  · intro m b1 b2 cf h1 h2 h3 hh1 hh2
    have hJit : updGroup m MevType.Sandwich [] MevType.Jit = [b2] := by
      rw [updGroup_other _ _ _ _ (by decide)]; exact h2
    have hfp : findPartner b1.hashes 0 (updGroup m MevType.Sandwich [] MevType.Jit) =
        some (0, b2) := by
      rw [hJit]
      simp only [findPartner]
      rw [hh1, hh2]
      rfl
    simp only [composeResultGroup, composeDepFilter, h1, composeLoop, hfp,
      Option.map_some']
    refine ⟨?_, ?_, ?_⟩ <;>
      simp only [Option.some.injEq]
    · rw [updGroup_same]
      rw [updGroup_other _ _ _ _ (by decide), updGroup_other _ _ _ _ (by decide)]
      rw [h3]
      simp
    · rw [updGroup_other _ _ _ _ (by decide), updGroup_other _ _ _ _ (by decide),
        updGroup_same]
    · rw [updGroup_other _ _ _ _ (by decide), updGroup_same]
      simp [hJit]
  · intro m parent d0 d1 cf hne hmatch t
    have hzero : ∀ b ∈ m d0, findPartner b.hashes 0 (updGroup m d0 [] d1) = none := by
      intro b hb
      rw [updGroup_other _ _ _ _ hne]
      exact findPartner_none _ _ (hmatch b hb) 0
    simp only [composeResultGroup, composeDepFilter, Option.map_some']
    rw [composeLoop_noPartner parent d0 d1 cf hne (m d0) (updGroup m d0 []) hzero t]
    by_cases ht : t = d0
    · subst ht; simp
    · simp [ht, updGroup_other _ _ _ _ ht]

/-- Witness for C5 at the concrete grouping `mapC5W` (scenario half) and at
`mapC6W` with dependencies `CexDex, Jit` (no-partner half, observed at the
`CexDex` group). -/
theorem claim5_witness :
    (composeResultGroup MevType.JitSandwich [MevType.Sandwich, MevType.Jit] cfW mapC5W
        MevType.JitSandwich = some [cfW bSandW bJitW] ∧
      composeResultGroup MevType.JitSandwich [MevType.Sandwich, MevType.Jit] cfW mapC5W
        MevType.Sandwich = some [] ∧
      composeResultGroup MevType.JitSandwich [MevType.Sandwich, MevType.Jit] cfW mapC5W
        MevType.Jit = some []) ∧
    composeResultGroup MevType.JitSandwich [MevType.CexDex, MevType.Jit] cfW mapC6W
      MevType.CexDex = some (mapC6W MevType.CexDex) :=
  ⟨claim5_compose_entry.1 mapC5W bSandW bJitW cfW rfl rfl rfl rfl rfl,
   claim5_compose_entry.2 mapC6W MevType.JitSandwich MevType.CexDex MevType.Jit cfW
     (by decide) (by decide) MevType.CexDex⟩

/-- C2 counterexample. On the tree `t2wit` (head index 0 with children of
index 1 and 2), `find` holds only at the head, so the head is the deepest
qualifying node; taking `classify` to return the gathered data itself and
`extract_info` to be the node index, the info snapshots passed to
`classify` turn out to be the empty list, while the claimed closed range
`[head.index, last_child.index] = [0, 2]` holds the three snapshots
`[0, 1, 2]`. The claim is therefore false: the snapshots are not gathered
from that range. -/
theorem claim2_counterexample :
    (Node.indexesToRemove (fun n => n.index == 0) (fun dat _ => dat) Node.index
        t2wit).2 = [] ∧
    specInfoInRange t2wit.index 2 Node.index t2wit = [0, 1, 2] := by
  decide

theorem gbiSlice_end_zero (lower upper : Nat) (infoFn : Node V → R) (s : Nat) :
    ∀ (pos : Nat) (l : List (Node V)),
      Node.gbiSlice lower upper infoFn s (some 0) pos l = [] := by
  intro pos l
  induction l generalizing pos with
  | nil => rfl
  | cons c cs ih =>
    have hp : posInSlice s (some 0) pos = false := by
      simp [posInSlice]
    simp only [Node.gbiSlice, hp, Bool.false_eq_true, if_false, List.nil_append]
    exact ih (pos + 1)

theorem getBoundedInfo_anchor_empty (n : Node V) (infoFn : Node V → R)
    (h : ∀ c ∈ n.inner, n.index < c.index) :
    Node.getBoundedInfo 0 n.index infoFn n = [] := by
  cases n with
  | mk inner f i s t a d =>
    simp only [Node.inner_mk, Node.index_mk] at h
    cases inner with
    | nil => rfl
    | cons c cs =>
      have hlast : ((c :: cs).getLast (List.cons_ne_nil c cs)).index > i :=
        h _ (List.getLast_mem _)
      simp only [Node.getBoundedInfo, Node.index_mk]
      rw [if_neg (by omega)]
      cases cs with
      | nil => rfl
      | cons c2 rest =>
        have hfirst : findPairIdx (fun x _ => decide (0 ≤ x.index)) 0
            (c :: c2 :: rest) = some 0 := by
          simp [findPairIdx]
        have hsecond : findPairIdx (fun _ y => decide (i < y.index)) 0
            (c :: c2 :: rest) = some 0 := by
          have : i < c2.index := h c2 (by simp)
          simp [findPairIdx, this]
        rw [hfirst, hsecond]
        exact gbiSlice_end_zero 0 i infoFn 0 0 _

theorem itrList_of_all_false (find : Node V → Bool)
    (classify : List R → Node V → List Nat) (infoFn : Node V → R)
    (l : List (Node V)) (h : ∀ c ∈ l, find c = false) :
    Node.itrList find classify infoFn l = (false, []) := by
  induction l with
  | nil => rfl
  | cons c cs ih =>
    have hc : Node.indexesToRemove find classify infoFn c = (false, []) := by
      cases c with
      | mk inner f i s t a d =>
        simp only [Node.indexesToRemove, h _ (by simp : Node.mk inner f i s t a d ∈
          Node.mk inner f i s t a d :: cs), Bool.not_false, if_true]
    simp only [Node.itrList, hc]
    rw [ih (fun x hx => h x (by simp [hx]))]
    simp

/-- C2 amended. In `remove_duplicate_data` the snapshot pass calls
`get_bounded_info` with the literal bounds `(0, node.index)` - not with the
claimed range `[node.index, last_child.index]`. Because in a
preorder-indexed tree every child's index exceeds its parent's, the
boundary scan then selects the empty slice, so the gathered snapshot list
is empty: at every deepest qualifying node, `classify` receives the empty
info sequence. -/
theorem claim2_amended :
    (∀ (n : Node V) (infoFn : Node V → R), (∀ c ∈ n.inner, n.index < c.index) →
        Node.getBoundedInfo 0 n.index infoFn n = []) ∧
    (∀ (n : Node V) (find : Node V → Bool)
        (classify : List R → Node V → List Nat) (infoFn : Node V → R),
        find n = true → (∀ c ∈ n.inner, find c = false) →
        (∀ c ∈ n.inner, n.index < c.index) →
        (Node.indexesToRemove find classify infoFn n).2 = classify [] n) := by
  constructor
  · exact fun n infoFn h => getBoundedInfo_anchor_empty n infoFn h
  · intro n find classify infoFn hfind hkids hidx
    cases n with
    | mk inner f i s t a d =>
      have hgbi := getBoundedInfo_anchor_empty (Node.mk inner f i s t a d) infoFn hidx
      simp only [Node.inner_mk] at hkids
      have hitr := itrList_of_all_false find classify infoFn inner hkids
      simp only [Node.indexesToRemove, hfind, Bool.not_true, if_false, hitr,
        Bool.not_false, if_true, Node.index_mk] at *
      rw [hgbi]
      rfl

/-- Witness for C2 amended, at the tree `t2wit` with `find` matching only
the head: `classify` (taken to echo its input) receives the empty list. -/
theorem claim2_amended_witness :
    ((fun (n : Node Nat) => n.index == 0) t2wit = true) ∧
    (Node.indexesToRemove (fun n => n.index == 0)
        (fun (dat : List Nat) _ => dat) Node.index t2wit).2 =
      (fun (dat : List Nat) _ => dat) [] t2wit :=
  ⟨rfl, claim2_amended.2 t2wit (fun n => n.index == 0) (fun dat _ => dat)
    Node.index rfl (by decide) (by decide)⟩

/-- C1 counterexample. On the finalized two-sibling tree `c1t` with the
always-true predicate, both children (actions 11 and 12) are deepest
qualifying nodes of their branches, so the claim requires the second
child's group `subactions ++ [action] = [12, 12]` among the results; but
`inspect` returns exactly one group (the first child's `[11, 11]`): the
lazy `map(..).any(..)` never recurses into the second child once the first
signalled a match. -/
theorem claim1_counterexample :
    (Node.inspect (fun _ => true) c1t).2.length = 1 ∧
    ¬ (Node.getAllSubActions (Node.finalize nodeB) ++ [(Node.finalize nodeB).data] ∈
        (Node.inspect (fun _ => true) c1t).2) := by
  decide

theorem leftmostDeep_none (call : Node V → Bool) (n : Node V)
    (h : n.inner.find? call = none) : leftmostDeep call n = n := by
  rw [leftmostDeep, h]

theorem leftmostDeep_some (call : Node V → Bool) (n c : Node V)
    (h : n.inner.find? call = some c) :
    leftmostDeep call n = leftmostDeep call c := by
  rw [leftmostDeep, h]

theorem inspect_of_call_false (call : Node V → Bool) (n : Node V)
    (h : call n = false) : Node.inspect call n = (false, []) := by
  cases n with
  | mk inner f i s t a d => simp [Node.inspect, h]

mutual

theorem inspect_shortcircuit (call : Node V → Bool) (n : Node V) (h : call n = true) :
    Node.inspect call n =
      (true, [Node.getAllSubActions (leftmostDeep call n) ++
        [(leftmostDeep call n).data]]) := by
  match n with
  | ⟨inner, f, i, s, t, a, d⟩ =>
    have hl := inspectList_shortcircuit call inner
    cases hfind : inner.find? call with
    | none =>
      rw [hfind] at hl
      rw [leftmostDeep_none call _ (by simp only [Node.inner_mk]; exact hfind)]
      simp only [Node.inspect, h, Bool.not_true, if_false, hl]
      simp
    | some c =>
      rw [hfind] at hl
      rw [leftmostDeep_some call _ c (by simp only [Node.inner_mk]; exact hfind)]
      simp only [Node.inspect, h, Bool.not_true, if_false, hl]
      simp

theorem inspectList_shortcircuit (call : Node V → Bool) (l : List (Node V)) :
    Node.inspectList call l =
      match l.find? call with
      | none => (false, [])
      | some c => (true, [Node.getAllSubActions (leftmostDeep call c) ++
          [(leftmostDeep call c).data]]) := by
  match l with
  | [] => rfl
  | c :: cs =>
    cases hc : call c with
    | true =>
      have hic := inspect_shortcircuit call c hc
      rw [List.find?_cons_of_pos _ hc]
      simp only [Node.inspectList, hic]
      simp
    | false =>
      have hic : Node.inspect call c = (false, []) := inspect_of_call_false call c hc
      have htl := inspectList_shortcircuit call cs
      rw [List.find?_cons_of_neg _ (by simp [hc])]
      simp only [Node.inspectList, hic, htl]
      cases hf : cs.find? call <;> simp

end

/-- C1 amended. `inspect` does not recurse into every child of a matching
node: the lazy `iter().map(..).any(..)` stops at the first child signalling
a match, so per Root exactly one result group is produced - the one
anchored at the node reached by repeatedly stepping into the first
matching child (`leftmostDeep`); a qualifying branch under a later sibling
is dropped once an earlier sibling's branch matched. A node failing the
predicate still contributes nothing. -/
theorem claim1_inspect_leftmost (call : Node V → Bool) (n : Node V) :
    (call n = false → Node.inspect call n = (false, [])) ∧
    (call n = true → Node.inspect call n =
      (true, [Node.getAllSubActions (leftmostDeep call n) ++
        [(leftmostDeep call n).data]])) :=
  ⟨fun h => inspect_of_call_false call n h, fun h => inspect_shortcircuit call n h⟩

/-- Witness for C1 amended at the finalized tree `c1t` with the always-true
predicate (and the always-false predicate on the same tree). -/
theorem claim1_witness :
    Node.inspect (fun _ => true) c1t =
      (true, [Node.getAllSubActions (leftmostDeep (fun _ => true) c1t) ++
        [(leftmostDeep (fun _ => true) c1t).data]]) ∧
    Node.inspect (fun _ => false) c1t = (false, []) :=
  ⟨(claim1_inspect_leftmost (fun _ => true) c1t).2 rfl,
   (claim1_inspect_leftmost (fun _ => false) c1t).1 rfl⟩

/-- C3 counterexample. On the chain head(0) -> child(1) -> grandchild(2)
with `find` always true, the deepest qualifying node is the grandchild and
`classify` returns its index 2; but after `remove_duplicate_data` the node
with index 2 is still in the tree: the removal loop reaches the head's
last (only) child, sees `peek() == None` and breaks without ever recursing
into it. -/
theorem claim3_counterexample :
    2 ∈ (Node.indexesToRemove (fun _ => true) (fun _ n => [n.index]) Node.index
        r3wit.head).2 ∧
    contains 2 ((Root.removeDuplicateData (fun _ => true) (fun _ n => [n.index])
        Node.index r3wit).head) = true := by
  decide

theorem wfList_cons (lo : Nat) (c : Node V) (cs : List (Node V)) :
    wfList lo (c :: cs) =
      (decide (lo < c.index) && wfNode c && wfList (maxIdx c) cs) := rfl

theorem containsList_cons (j : Nat) (c : Node V) (cs : List (Node V)) :
    containsList j (c :: cs) = (contains j c || containsList j cs) := rfl

theorem inSubList_cons (i j : Nat) (c : Node V) (cs : List (Node V)) :
    inSubList i j (c :: cs) = (inSub i j c || inSubList i j cs) := rfl

theorem le_maxIdxList (l : List (Node V)) : ∀ acc, acc ≤ maxIdxList acc l := by
  induction l with
  | nil => intro acc; simp [maxIdxList]
  | cons c cs ih =>
    intro acc
    have h1 := ih (max acc (maxIdx c))
    simp only [maxIdxList]
    exact le_trans (Nat.le_max_left _ _) h1

theorem index_le_maxIdx (n : Node V) : n.index ≤ maxIdx n := by
  cases n with
  | mk inner f i s t a d =>
    simp only [maxIdx, Node.index_mk]
    exact le_maxIdxList inner i

mutual

theorem contains_le_maxIdx (j : Nat) (n : Node V) (h : contains j n = true) :
    j ≤ maxIdx n := by
  match n with
  | ⟨inner, f, i, s, t, a, d⟩ =>
    simp only [contains, Bool.or_eq_true, beq_iff_eq] at h
    simp only [maxIdx]
    cases h with
    | inl hij => exact hij ▸ le_maxIdxList inner i
    | inr hc => exact containsList_le_maxIdxList j inner hc i

theorem containsList_le_maxIdxList (j : Nat) (l : List (Node V))
    (h : containsList j l = true) : ∀ acc, j ≤ maxIdxList acc l := by
  match l with
  | [] => simp [containsList] at h
  | c :: cs =>
    intro acc
    simp only [containsList, Bool.or_eq_true] at h
    simp only [maxIdxList]
    cases h with
    | inl hc =>
      have h1 := contains_le_maxIdx j c hc
      have h2 := le_maxIdxList cs (max acc (maxIdx c))
      have h3 : maxIdx c ≤ max acc (maxIdx c) := Nat.le_max_right _ _
      omega
    | inr hcs => exact containsList_le_maxIdxList j cs hcs _

end

mutual

theorem wf_contains_lower (j : Nat) (n : Node V) (hw : wfNode n = true)
    (hc : contains j n = true) : n.index ≤ j := by
  match n with
  | ⟨inner, f, i, s, t, a, d⟩ =>
    simp only [wfNode] at hw
    simp only [contains, Bool.or_eq_true, beq_iff_eq] at hc
    simp only [Node.index_mk]
    cases hc with
    | inl hij => omega
    | inr hcl =>
      have h1 := wfList_containsList_lower j i inner hw hcl
      omega

theorem wfList_containsList_lower (j lo : Nat) (l : List (Node V))
    (hw : wfList lo l = true) (hc : containsList j l = true) : lo < j := by
  match l with
  | [] => simp [containsList] at hc
  | c :: cs =>
    simp only [wfList, Bool.and_eq_true, decide_eq_true_eq] at hw
    obtain ⟨⟨hlo, hwc⟩, hwcs⟩ := hw
    simp only [containsList, Bool.or_eq_true] at hc
    cases hc with
    | inl hcc =>
      have h1 := wf_contains_lower j c hwc hcc
      omega
    | inr hccs =>
      have h1 := wfList_containsList_lower j (maxIdx c) cs hwcs hccs
      have h2 := index_le_maxIdx c
      omega

end

theorem wfList_head_le (j lo : Nat) (c : Node V) (cs : List (Node V))
    (hw : wfList lo (c :: cs) = true) (hc : containsList j (c :: cs) = true) :
    c.index ≤ j := by
  simp only [wfList, Bool.and_eq_true, decide_eq_true_eq] at hw
  obtain ⟨⟨hlo, hwc⟩, hwcs⟩ := hw
  simp only [containsList, Bool.or_eq_true] at hc
  cases hc with
  | inl hcc => exact wf_contains_lower j c hwc hcc
  | inr hccs =>
    have h1 := wfList_containsList_lower j (maxIdx c) cs hwcs hccs
    have h2 := index_le_maxIdx c
    omega

mutual

theorem inSub_contains (i j : Nat) (n : Node V) (h : inSub i j n = true) :
    contains i n = true ∧ contains j n = true := by
  match n with
  | ⟨inner, f, idx, s, t, a, d⟩ =>
    cases hidx : (idx == i) with
    | true =>
      simp only [inSub, hidx, if_true] at h
      refine ⟨?_, h⟩
      simp only [contains, Bool.or_eq_true]
      exact Or.inl hidx
    | false =>
      simp only [inSub, hidx, Bool.false_eq_true, if_false] at h
      have h1 := inSubList_containsList i j inner h
      constructor
      · simp only [contains, Bool.or_eq_true]
        exact Or.inr h1.1
      · simp only [contains, Bool.or_eq_true]
        exact Or.inr h1.2

theorem inSubList_containsList (i j : Nat) (l : List (Node V))
    (h : inSubList i j l = true) :
    containsList i l = true ∧ containsList j l = true := by
  match l with
  | [] => simp [inSubList] at h
  | c :: cs =>
    simp only [inSubList, Bool.or_eq_true] at h
    simp only [containsList, Bool.or_eq_true]
    cases h with
    | inl hc =>
      have h1 := inSub_contains i j c hc
      exact ⟨Or.inl h1.1, Or.inl h1.2⟩
    | inr hcs =>
      have h1 := inSubList_containsList i j cs hcs
      exact ⟨Or.inr h1.1, Or.inr h1.2⟩

end

theorem removableLoop_false_of_le (i lo : Nat) (l : List (Node V))
    (hw : wfList lo l = true) (hle : i ≤ lo) : removableLoop i l = false := by
  match l with
  | [] => rfl
  | [c] =>
    simp only [wfList, Bool.and_eq_true, decide_eq_true_eq] at hw
    obtain ⟨⟨hlo, _⟩, _⟩ := hw
    simp only [removableLoop, beq_eq_false_iff_ne]
    omega
  | c :: c2 :: rest =>
    rw [wfList_cons] at hw
    simp only [Bool.and_eq_true, decide_eq_true_eq] at hw
    obtain ⟨⟨hlo, hwc⟩, hwrest⟩ := hw
    have hne : (c.index == i) = false := by
      simp only [beq_eq_false_iff_ne]
      omega
    have hnb : ¬ (c.index < i ∧ i < c2.index) := by omega
    simp only [removableLoop, hne, Bool.false_eq_true, if_false, if_neg hnb]
    have h2 := index_le_maxIdx c
    exact removableLoop_false_of_le i (maxIdx c) (c2 :: rest) hwrest (by omega)

mutual

theorem removeIndexAndChilds_noop (i : Nat) (n : Node V)
    (h : removableNode i n = false) : Node.removeIndexAndChilds i n = n := by
  match n with
  | ⟨inner, f, idx, s, t, a, d⟩ =>
    simp only [removableNode] at h
    simp only [Node.removeIndexAndChilds]
    split
    · rfl
    · rw [removeLoop_noop i inner h]

theorem removeLoop_noop (i : Nat) (l : List (Node V))
    (h : removableLoop i l = false) : Node.removeLoop i l = l := by
  match l with
  | [] => rfl
  | [c] =>
    simp only [removableLoop] at h
    simp only [Node.removeLoop, h, Bool.false_eq_true, if_false]
  | c :: c2 :: rest =>
    cases hc : (c.index == i) with
    | true =>
      simp only [removableLoop, hc, if_true] at h
      exact Bool.noConfusion h
    | false =>
      by_cases hbt : (c.index < i ∧ i < c2.index)
      · have h2 : removableNode i c = false := by
          simp only [removableLoop, hc, Bool.false_eq_true, if_false, if_pos hbt] at h
          exact h
        simp only [Node.removeLoop, hc, Bool.false_eq_true, if_false, if_pos hbt]
        rw [removeIndexAndChilds_noop i c h2]
      · have h2 : removableLoop i (c2 :: rest) = false := by
          simp only [removableLoop, hc, Bool.false_eq_true, if_false, if_neg hbt] at h
          exact h
        simp only [Node.removeLoop, hc, Bool.false_eq_true, if_false, if_neg hbt]
        rw [removeLoop_noop i (c2 :: rest) h2]

end

mutual

theorem removeIndexAndChilds_kills (i j : Nat) (n : Node V) (hw : wfNode n = true)
    (hr : removableNode i n = true) (hs : inSub i j n = true) :
    contains j (Node.removeIndexAndChilds i n) = false := by
  match n with
  | ⟨inner, f, idx, s, t, a, d⟩ =>
    simp only [wfNode] at hw
    simp only [removableNode, Node.inner_mk] at hr
    have hidx : (idx == i) = false := by
      cases hq : (idx == i) with
      | false => rfl
      | true =>
        simp only [beq_iff_eq] at hq
        rw [removableLoop_false_of_le i idx inner hw (by omega)] at hr
        cases hr
    have hs2 : inSubList i j inner = true := by
      simp only [inSub, hidx, Bool.false_eq_true, if_false] at hs
      exact hs
    have hjlo : idx < j :=
      wfList_containsList_lower j idx inner hw (inSubList_containsList i j inner hs2).2
    cases inner with
    | nil => simp [removableLoop] at hr
    | cons c cs =>
      simp only [Node.removeIndexAndChilds, List.isEmpty_cons, Bool.false_eq_true,
        if_false]
      simp only [contains, Bool.or_eq_false_iff]
      constructor
      · simp only [beq_eq_false_iff_ne]
        omega
      · exact removeLoop_kills i j idx (c :: cs) hw hr hs2

theorem removeLoop_kills (i j lo : Nat) (l : List (Node V)) (hw : wfList lo l = true)
    (hr : removableLoop i l = true) (hs : inSubList i j l = true) :
    containsList j (Node.removeLoop i l) = false := by
  match l with
  | [] => simp [removableLoop] at hr
  | [c] =>
    simp only [removableLoop] at hr
    simp [Node.removeLoop, hr, containsList]
  | c :: c2 :: rest =>
    have hw2 := hw
    rw [wfList_cons] at hw2
    simp only [Bool.and_eq_true, decide_eq_true_eq] at hw2
    obtain ⟨⟨hlo, hwc⟩, hwrest⟩ := hw2
    have hmx : maxIdx c < c2.index := by
      have h3 := hwrest
      rw [wfList_cons] at h3
      simp only [Bool.and_eq_true, decide_eq_true_eq] at h3
      exact h3.1.1
    cases hc : (c.index == i) with
    | true =>
      have hceq : c.index = i := by simpa [beq_iff_eq] using hc
      simp only [Node.removeLoop, hc, if_true]
      rw [inSubList_cons, Bool.or_eq_true] at hs
      cases hs with
      | inl hsc =>
        have hjc : contains j c = true := (inSub_contains i j c hsc).2
        have hjmax : j ≤ maxIdx c := contains_le_maxIdx j c hjc
        cases hq : containsList j (c2 :: rest) with
        | false => rfl
        | true =>
          have h4 := wfList_containsList_lower j (maxIdx c) (c2 :: rest) hwrest hq
          omega
      | inr hstail =>
        have hic : containsList i (c2 :: rest) = true :=
          (inSubList_containsList i j (c2 :: rest) hstail).1
        have h4 := wfList_containsList_lower i (maxIdx c) (c2 :: rest) hwrest hic
        have h5 := index_le_maxIdx c
        omega
    | false =>
      by_cases hbt : (c.index < i ∧ i < c2.index)
      · have hrc : removableNode i c = true := by
          simp only [removableLoop, hc, Bool.false_eq_true, if_false, if_pos hbt] at hr
          exact hr
        simp only [Node.removeLoop, hc, Bool.false_eq_true, if_false, if_pos hbt]
        rw [containsList_cons, Bool.or_eq_false_iff]
        rw [inSubList_cons, Bool.or_eq_true] at hs
        cases hs with
        | inl hsc =>
          constructor
          · exact removeIndexAndChilds_kills i j c hwc hrc hsc
          · have hjc := (inSub_contains i j c hsc).2
            have hjmax := contains_le_maxIdx j c hjc
            cases hq : containsList j (c2 :: rest) with
            | false => rfl
            | true =>
              have h4 := wfList_containsList_lower j (maxIdx c) (c2 :: rest) hwrest hq
              omega
        | inr hstail =>
          have hic := (inSubList_containsList i j (c2 :: rest) hstail).1
          have h4 := wfList_head_le i (maxIdx c) c2 rest hwrest hic
          omega
      · have hrt : removableLoop i (c2 :: rest) = true := by
          simp only [removableLoop, hc, Bool.false_eq_true, if_false, if_neg hbt] at hr
          exact hr
        simp only [Node.removeLoop, hc, Bool.false_eq_true, if_false, if_neg hbt]
        rw [containsList_cons, Bool.or_eq_false_iff]
        rw [inSubList_cons, Bool.or_eq_true] at hs
        cases hs with
        | inl hsc =>
          have hic := (inSub_contains i j c hsc).1
          have h1 := wf_contains_lower i c hwc hic
          have h2 := contains_le_maxIdx i c hic
          have hne : c.index ≠ i := by simpa [beq_eq_false_iff_ne] using hc
          exact absurd (⟨by omega, by omega⟩ : c.index < i ∧ i < c2.index) hbt
        | inr hstail =>
          constructor
          · have hjt := (inSubList_containsList i j (c2 :: rest) hstail).2
            have hjlo := wfList_containsList_lower j (maxIdx c) (c2 :: rest) hwrest hjt
            cases hq : contains j c with
            | false => rfl
            | true =>
              have h4 := contains_le_maxIdx j c hq
              omega
          · exact removeLoop_kills i j (maxIdx c) (c2 :: rest) hwrest hrt hstail

end

/-- C3 amended. Under the preorder index invariant `wfNode`, a classified
index `i` is removed together with its entire subtree exactly when the
removal descent can reach it (`removableNode`): at each level `i` equals a
child's index or lies strictly between two consecutive children's indexes.
When the descent cannot reach `i` - in particular when `i` lies strictly
inside the subtree of a node's last child, as in the counterexample - the
removal pass is a no-op and the node survives. -/
theorem claim3_removal (i : Nat) (n : Node V) (hw : wfNode n = true) :
    (removableNode i n = true → ∀ j, inSub i j n = true →
      contains j (Node.removeIndexAndChilds i n) = false) ∧
    (removableNode i n = false → Node.removeIndexAndChilds i n = n) :=
  ⟨fun hr j hs => removeIndexAndChilds_kills i j n hw hr hs,
   fun hr => removeIndexAndChilds_noop i n hr⟩

/-- Witness for C3 amended at `t3wit`: removing index 1 (a direct child of
the head) erases the whole subtree below it, index 2 included; index 5 is
unreachable and removal is a no-op. -/
theorem claim3_witness :
    wfNode t3wit = true ∧
    contains 2 (Node.removeIndexAndChilds 1 t3wit) = false ∧
    Node.removeIndexAndChilds 5 t3wit = t3wit :=
  ⟨rfl, (claim3_removal 1 t3wit rfl).1 rfl 2 rfl, (claim3_removal 5 t3wit rfl).2 rfl⟩

end Brontes
